import Mathlib

/-!
Verification of the `betterSession` server-side session plugin
(`src/plugin.ts`), its cookie parsing (`src/cookie.ts`) and the in-memory
storage adapter.  The state machine, its operations and the commit protocol
are embedded as pure Lean functions; adapter and cookie I/O is modelled as
an ordered effect trace.  JavaScript string truthiness (empty string is
falsy) is modelled explicitly by `strTruthy`.
-/

namespace BetterSession

variable {α : Type}

/-- A stored record: `{ data, expiresAt }` (`StoredSession` in `types.ts`). -/
structure StoredSession (α : Type) where
  data : α
  expiresAt : Nat
deriving DecidableEq, Repr

/-- One observable side effect of a request: an adapter call
(`adapter.set` / `adapter.delete`) or an appended `Set-Cookie` value
(`serializeExpiredCookie` / `serializeSessionCookie`). -/
inductive Effect (α : Type) where
  | storeSet (id : String) (record : StoredSession α)
  | storeDelete (id : String)
  | cookieExpired
  | cookieLive (id : String) (expiresAt : Nat)
deriving DecidableEq, Repr

/-- Plugin configuration flags resolved at setup (`plugin.ts` lines 49-51). -/
structure Config where
  ttl : Nat
  rolling : Bool
  createOnRequest : Bool
deriving DecidableEq, Repr

/-- Per-request environment: the configuration, the id generator
(`generateId`, indexed by the number of ids generated so far), the clock
(`Date.now()`, modelled as constant within one request), the incoming
cookie's session id value, the adapter's view at request start
(`adapter.get`, already filtered for expiry), and `initialData()`. -/
structure Env (α : Type) where
  cfg : Config
  genId : Nat → String
  now : Nat
  incomingId : Option String
  store : String → Option (StoredSession α)
  initialData : α

/-- JavaScript truthiness of a `string | null | undefined` value:
`null`/`undefined` and the empty string are falsy. -/
def strTruthy : Option String → Bool
  | some s => !s.isEmpty
  | none => false

/-- The mutable per-request state (`state` object, `plugin.ts` lines 84-93). -/
structure SessionState (α : Type) where
  id : Option String
  data : α
  expiresAt : Nat
  isNew : Bool
  destroyed : Bool
  revision : Nat
  savedRevision : Nat
  committed : Bool
deriving DecidableEq, Repr

/-- Request-scoped machine state: the session state, how many ids
`generateId` has produced, and the accumulated effect trace. -/
structure MState (α : Type) where
  s : SessionState α
  gen : Nat
  effects : List (Effect α)
deriving DecidableEq, Repr

/-- `incomingId ? await adapter.get(incomingId) : null` (`plugin.ts` line 76). -/
def resolveStored (env : Env α) : Option (StoredSession α) :=
  if strTruthy env.incomingId then env.store (env.incomingId.getD "") else none

/-- Whether the incoming id resolved to a valid (unexpired) stored record. -/
def storedFound (env : Env α) : Bool :=
  (resolveStored env).isSome

/-- Session initialization at request resolution (`plugin.ts` lines 70-93):
look up the incoming id, emit a clearing cookie when a stale id arrived,
and build the initial state (eager id generation under `createOnRequest`). -/
def resolve (env : Env α) : MState α :=
  match resolveStored env with
  | some record =>
      { s := { id := env.incomingId, data := record.data,
               expiresAt := record.expiresAt, isNew := false,
               destroyed := false, revision := 0, savedRevision := 0,
               committed := false }
        gen := 0
        effects := [] }
  | none =>
      { s := { id := if env.cfg.createOnRequest then some (env.genId 0) else none,
               data := env.initialData, expiresAt := env.now + env.cfg.ttl,
               isNew := true, destroyed := false, revision := 0,
               savedRevision := 0, committed := false }
        gen := if env.cfg.createOnRequest then 1 else 0
        effects := if strTruthy env.incomingId then [Effect.cookieExpired] else [] }

/-- `markDirty` (`plugin.ts` lines 104-107). -/
def markDirty (s : SessionState α) : SessionState α :=
  { s with revision := s.revision + 1, committed := false }

/-- `ensureId` (`plugin.ts` lines 95-102): materialize an id when the
current one is falsy. -/
def ensureId (env : Env α) (m : MState α) : String × MState α :=
  if strTruthy m.s.id then (m.s.id.getD "", m)
  else
    (env.genId m.gen,
     { m with gen := m.gen + 1,
              s := { m.s with id := some (env.genId m.gen), isNew := true } })

/-- The persistence mode argument of `persist`. -/
inductive PersistMode where
  | auto
  | manual
deriving DecidableEq, Repr

/-- The effects of the destroyed branch of `persist` (`plugin.ts` lines
114-122): delete the record when an id is truthy, then clear the cookie
when either the incoming id or the current id is truthy. -/
def destroyedEffects (env : Env α) (m : MState α) : List (Effect α) :=
  (if strTruthy m.s.id then [Effect.storeDelete (m.s.id.getD "")]
   else ([] : List (Effect α))) ++
  (if strTruthy env.incomingId || strTruthy m.s.id then [Effect.cookieExpired]
   else ([] : List (Effect α)))

/-- The `shouldWrite` decision of `persist` (`plugin.ts` lines 128-133). -/
def shouldWrite (env : Env α) (mode : PersistMode) (m : MState α) : Bool :=
  let dirty : Bool := m.s.savedRevision != m.s.revision
  if m.s.isNew then
    env.cfg.createOnRequest || strTruthy m.s.id || dirty ||
      (mode == PersistMode.manual)
  else
    dirty || (env.cfg.rolling && strTruthy env.incomingId)

/-- The write branch of `persist` (`plugin.ts` lines 140-156): materialize
an id, refresh `expiresAt`, store the record and emit a live cookie. -/
def persistWrite (env : Env α) (m : MState α) : MState α :=
  let idm := ensureId env m
  let theId := idm.1
  let m1 := idm.2
  let exp := env.now + env.cfg.ttl
  { m1 with
      effects := m1.effects ++
        [Effect.storeSet theId ⟨m1.s.data, exp⟩,
         Effect.cookieLive theId exp]
      s := { m1.s with
               expiresAt := exp
               isNew := false
               savedRevision := m1.s.revision
               committed := true } }

/-- `persist` (`plugin.ts` lines 109-157): the commit step.  No-op when
already committed; on a destroyed session delete the record and clear the
cookie; otherwise decide `shouldWrite` and either skip or write the record
and emit a live cookie. -/
def persist (env : Env α) (mode : PersistMode) (m : MState α) : MState α :=
  if m.s.committed then m
  else if m.s.destroyed then
    { m with
        effects := m.effects ++ destroyedEffects env m
        s := { m.s with savedRevision := m.s.revision, committed := true } }
  else if !shouldWrite env mode m then
    { m with s := { m.s with committed := true } }
  else
    persistWrite env m

/-- `session.regenerate` (`plugin.ts` lines 195-213): fails on a destroyed
session; otherwise assigns a fresh id, sets `isNew`, marks dirty, and
immediately deletes the previous id's record when it existed and differs
from the new id.  Returns the new id together with the new state; `none`
models the thrown invalid-state error. -/
def regenerateCall (env : Env α) (m : MState α) : Option (String × MState α) :=
  if m.s.destroyed then none
  else
    let prev := m.s.id
    let next := env.genId m.gen
    let m1 : MState α :=
      { m with gen := m.gen + 1,
               s := markDirty { m.s with id := some next, isNew := true } }
    let m2 : MState α :=
      if prev == some next then m1
      else if strTruthy prev then
        { m1 with effects := m1.effects ++ [Effect.storeDelete (prev.getD "")] }
      else m1
    some (next, m2)

/-- A handler-issued operation on the session handle.  `mutate f` covers
`set`/`assign`/`replace`/`update`/`delete`, all of which replace or edit
`state.data` and then call `markDirty` (`plugin.ts` lines 175-194). -/
inductive Op (α : Type) where
  | mutate (f : α → α)
  | regenerate
  | destroy
  | save

/-- One handler operation.  The Bool is `false` when the call threw
(`regenerate` on a destroyed session), in which case the state is the one
at the point of the throw. -/
def applyOp (env : Env α) : Op α → MState α → MState α × Bool
  | Op.mutate f, m =>
      ({ m with s := markDirty { m.s with data := f m.s.data } }, true)
  | Op.regenerate, m =>
      match regenerateCall env m with
      | none => (m, false)
      | some nm => (nm.2, true)
  | Op.destroy, m =>
      if m.s.destroyed then (m, true)
      else
        (persist env PersistMode.manual
          { m with s := markDirty { m.s with destroyed := true } }, true)
  | Op.save, m => (persist env PersistMode.manual m, true)

/-- Run a handler's operation sequence, stopping at the first throw. -/
def runOps (env : Env α) : List (Op α) → MState α → MState α × Bool
  | [], m => (m, true)
  | op :: rest, m =>
      match applyOp env op m with
      | (m1, true) => runOps env rest m1
      | (m1, false) => (m1, false)

/-- A full request: resolve the session, run the handler, and — when the
handler did not throw — run the end-of-request auto commit
(`onAfterHandle`, `plugin.ts` lines 233-235). -/
def runRequest (env : Env α) (ops : List (Op α)) : Option (MState α) :=
  match runOps env ops (resolve env) with
  | (m, true) => some (persist env PersistMode.auto m)
  | (_, false) => none

/-- All effects in the list are clearing-only: an expired cookie or a
store deletion. -/
def ClearingOnly (l : List (Effect α)) : Prop :=
  ∀ e ∈ l, e = Effect.cookieExpired ∨ ∃ i, e = Effect.storeDelete i

/-- A concrete test environment over `Nat` payloads: no incoming cookie,
empty store, eager id creation. -/
def envEager : Env Nat :=
  { cfg := { ttl := 50, rolling := true, createOnRequest := true }
    genId := fun n => "g" ++ toString n
    now := 100
    incomingId := none
    store := fun _ => none
    initialData := 0 }

/-- Like `envEager` but with lazy session creation (`createOnRequest = false`). -/
def envLazy : Env Nat :=
  { envEager with cfg := { ttl := 50, rolling := true, createOnRequest := false } }

/-- Lazy creation, rolling enabled, and an incoming cookie `"abc"` that
resolves to a valid stored record. -/
def envRollingHit : Env Nat :=
  { envLazy with
      incomingId := some "abc"
      store := fun i => if i = "abc" then some ⟨7, 900⟩ else none }

/-- Reachability invariant of the per-request state: the saved revision
never exceeds the revision, and an uncommitted, clean, non-new state can
only arise when the incoming id resolved to a valid stored record. -/
def ReachInv (env : Env α) (m : MState α) : Prop :=
  m.s.savedRevision ≤ m.s.revision ∧
  (m.s.committed = false → m.s.isNew = false →
    m.s.savedRevision = m.s.revision → storedFound env = true)

/-- The end-of-request write condition in the words of the spec (C2):
for a new session, `createOnRequest` or an assigned id or a dirty session;
for a previously loaded one, dirty or rolling with a valid incoming id.
Spec-side definition, to be compared with the code's `shouldWrite`. -/
def specAutoWrite (env : Env α) (m : MState α) : Bool :=
  if m.s.isNew then
    env.cfg.createOnRequest || strTruthy m.s.id ||
      (m.s.savedRevision != m.s.revision)
  else
    (m.s.savedRevision != m.s.revision) ||
      (env.cfg.rolling && storedFound env)

/-- The fresh (no stored record) initial state of `resolve`, parametrized
by the id decision, generator counter and resolution effects. -/
def freshState (env : Env α) (idv : Option String) (genv : Nat)
    (effs : List (Effect α)) : MState α :=
  { s := { id := idv
           data := env.initialData
           expiresAt := env.now + env.cfg.ttl
           isNew := true
           destroyed := false
           revision := 0
           savedRevision := 0
           committed := false }
    gen := genv
    effects := effs }

/-- Like `envEager` but the request carries a stale cookie id that no
stored record matches. -/
def envStale : Env Nat :=
  { envEager with incomingId := some "stale" }

end BetterSession

namespace BetterSession
namespace Cookie

/-- `String.prototype.trim` on a character list. -/
def jsTrim (s : List Char) : List Char :=
  ((s.dropWhile Char.isWhitespace).reverse.dropWhile Char.isWhitespace).reverse

/-- `String.prototype.split(sep)`: always returns at least one piece. -/
def splitOnChar (sep : Char) : List Char → List (List Char)
  | [] => [[]]
  | c :: cs =>
    match splitOnChar sep cs with
    | [] => [[]]
    | piece :: rest =>
        if c = sep then [] :: piece :: rest else (c :: piece) :: rest

/-- Split at the first occurrence of `sep` (`indexOf`/`slice` pair in
`parseCookies`); `none` when the separator does not occur. -/
def breakAtFirst (sep : Char) : List Char → Option (List Char × List Char)
  | [] => none
  | c :: cs =>
      if c = sep then some ([], cs)
      else (breakAtFirst sep cs).map (fun p => (c :: p.1, p.2))

/-- Process one `;`-separated pair (`cookie.ts` lines 41-59): skip when
there is no `=` or the trimmed name is empty; URL-decode the trimmed value
via `decode`, falling back to the raw value when decoding fails.  The
decoder (`decodeURIComponent`) is a platform builtin and is therefore a
parameter. -/
def parsePair (decode : List Char → Option (List Char)) (pair : List Char) :
    Option (List Char × List Char) :=
  match breakAtFirst '=' pair with
  | none => none
  | some nv =>
      let rawName := jsTrim nv.1
      let rawValue := jsTrim nv.2
      if rawName = [] then none
      else some (rawName,
        match decode rawValue with
        | some d => d
        | none => rawValue)

/-- JavaScript object assignment `result[rawName] = v`: replaces the value
at the first occurrence of the key, appending when absent. -/
def setKey : List (List Char × List Char) → List Char → List Char →
    List (List Char × List Char)
  | [], k, v => [(k, v)]
  | p :: rest, k, v =>
      if p.1 = k then (k, v) :: rest else p :: setKey rest k v

/-- JavaScript property read `result[k]`. -/
def lookupKey (m : List (List Char × List Char)) (k : List Char) :
    Option (List Char) :=
  (m.find? (fun p => p.1 == k)).map (fun p => p.2)

/-- `parseCookies` (`cookie.ts` lines 33-62), over character lists: a
falsy (`null` or empty) header yields the empty mapping; otherwise split
on `;`, parse each pair, and assign into the result object in order. -/
def parseCookies (decode : List Char → Option (List Char)) :
    Option (List Char) → List (List Char × List Char)
  | none => []
  | some header =>
      if header.isEmpty then []
      else
        ((splitOnChar ';' header).filterMap (parsePair decode)).foldl
          (fun acc p => setKey acc p.1 p.2) []

end Cookie
end BetterSession

namespace BetterSession
namespace Memory

/-- A JavaScript runtime value: a primitive (number or string) or a
reference to a heap object. -/
inductive JVal where
  | num (n : Int)
  | str (s : String)
  | ref (r : Nat)
deriving DecidableEq, Repr

/-- A heap object: an ordered field list. -/
abbrev Obj := List (String × JVal)

/-- The object heap: index = object identity; allocation appends. -/
abbrev Heap := List Obj

/-- A pure JSON tree: the observable value of a heap-rooted structure. -/
inductive JTree where
  | num (n : Int)
  | str (s : String)
  | obj (fields : List (String × JTree))

/-- Map a fallible function over a list, failing when any element fails. -/
def optMapList {β γ : Type} (g : β → Option γ) : List β → Option (List γ)
  | [] => some []
  | b :: rest =>
      match g b, optMapList g rest with
      | some c, some cs => some (c :: cs)
      | _, _ => none

/-- Materialize the JSON tree of a value, `none` when the fuel runs out or
a reference dangles (models `JSON.stringify` failure on cyclic data). -/
def readVal : Nat → Heap → JVal → Option JTree
  | 0, _, _ => none
  | fuel + 1, h, v =>
      match v with
      | JVal.num n => some (JTree.num n)
      | JVal.str s => some (JTree.str s)
      | JVal.ref r =>
          match h.get? r with
          | none => none
          | some fields =>
              (optMapList (fun f => (readVal fuel h f.2).map
                (fun t => (f.1, t))) fields).map JTree.obj

/-- Materialize the trees of all field values of an object. -/
def readFields (fuel : Nat) (h : Heap) (l : List (String × JVal)) :
    Option (List (String × JTree)) :=
  optMapList (fun f => (readVal fuel h f.2).map (fun t => (f.1, t))) l

/-- Thread the heap through writing a list of field trees. -/
def optFoldFields (wr : JTree → Heap → Option (Heap × JVal)) :
    List (String × JTree) → Heap → Option (Heap × Obj)
  | [], g => some (g, [])
  | f :: rest, g =>
      match wr f.2 g with
      | none => none
      | some gv =>
          match optFoldFields wr rest gv.1 with
          | none => none
          | some gw => some (gw.1, (f.1, gv.2) :: gw.2)

/-- Write a JSON tree into the heap as freshly allocated objects
(models `JSON.parse` of a serialized payload). -/
def writeVal : Nat → JTree → Heap → Option (Heap × JVal)
  | 0, _, _ => none
  | fuel + 1, t, g =>
      match t with
      | JTree.num n => some (g, JVal.num n)
      | JTree.str s => some (g, JVal.str s)
      | JTree.obj ts =>
          match optFoldFields (writeVal fuel) ts g with
          | none => none
          | some gw => some (gw.1 ++ [gw.2], JVal.ref gw.1.length)

/-- Write the fields of an object tree in order. -/
def writeFields (fuel : Nat) (ts : List (String × JTree)) (g : Heap) :
    Option (Heap × Obj) :=
  optFoldFields (writeVal fuel) ts g

/-- `defaultClone` of the in-memory adapter, in its JSON round-trip form
(`JSON.parse(JSON.stringify(value))`): materialize the tree, then write it
back as fresh objects. -/
def cloneVal (fuel : Nat) (h : Heap) (v : JVal) : Option (Heap × JVal) :=
  match readVal fuel h v with
  | none => none
  | some t => writeVal fuel t h

/-- Replace-or-append assignment on an object's field list
(JavaScript property write). -/
def objSet : Obj → String → JVal → Obj
  | [], k, v => [(k, v)]
  | f :: rest, k, v =>
      if f.1 = k then (k, v) :: rest else f :: objSet rest k v

/-- Mutate field `k` of the object at heap index `q`; out-of-range indices
leave the heap unchanged. -/
def setField : Heap → Nat → String → JVal → Heap
  | [], _, _, _ => []
  | o :: rest, 0, k, v => objSet o k v :: rest
  | o :: rest, n + 1, k, v => o :: setField rest n k v

/-- `Map.set` on the session table. -/
def msSet : List (String × (JVal × Nat)) → String → (JVal × Nat) →
    List (String × (JVal × Nat))
  | [], k, v => [(k, v)]
  | p :: rest, k, v =>
      if p.1 = k then (k, v) :: rest else p :: msSet rest k v

/-- `Map.get` on the session table. -/
def msGet (s : List (String × (JVal × Nat))) (k : String) :
    Option (JVal × Nat) :=
  (s.find? (fun p => p.1 == k)).map (fun p => p.2)

/-- `Map.delete` on the session table. -/
def msDelete (s : List (String × (JVal × Nat))) (k : String) :
    List (String × (JVal × Nat)) :=
  s.eraseP (fun p => p.1 == k)

/-- The in-memory adapter's state: the shared object heap and the
`sessions` map, whose entries hold the cloned data root and `expiresAt`
(`createMemorySessionAdapter`). -/
structure AdapterState where
  heap : Heap
  sessions : List (String × (JVal × Nat))
deriving DecidableEq, Repr

/-- `set(id, session)` of the memory adapter: store a deep clone of the
record (`sessions.set(id, clone(session))`); `none` models only clone-fuel
exhaustion. -/
def memSet (fuel : Nat) (st : AdapterState) (id : String) (dv : JVal)
    (exp : Nat) : Option AdapterState :=
  match cloneVal fuel st.heap dv with
  | none => none
  | some hv =>
      some { heap := hv.1, sessions := msSet st.sessions id (hv.2, exp) }

/-- `get(id)` of the memory adapter: absent gives `null`; an expired entry
is reclaimed and gives `null`; otherwise a deep clone of the stored record
is returned. -/
def memGet (fuel nowv : Nat) (st : AdapterState) (id : String) :
    Option (AdapterState × Option (JVal × Nat)) :=
  match msGet st.sessions id with
  | none => some (st, none)
  | some rec =>
      if rec.2 ≤ nowv then
        some ({ st with sessions := msDelete st.sessions id }, none)
      else
        match cloneVal fuel st.heap rec.1 with
        | none => none
        | some hv => some ({ st with heap := hv.1 }, some (hv.2, rec.2))

/-- `delete(id)` of the memory adapter. -/
def memDelete (st : AdapterState) (id : String) : AdapterState :=
  { st with sessions := msDelete st.sessions id }

/-- The observable outcome of `get(id)`: `none` for clone-fuel exhaustion,
`some none` for a `null` result, and `some (some (t, e))` for a returned
record whose data reads back as the tree `t` with expiry `e`. -/
def memGetObs (fuel nowv : Nat) (st : AdapterState) (id : String) :
    Option (Option (JTree × Nat)) :=
  match memGet fuel nowv st id with
  | none => none
  | some (_, none) => some none
  | some (st2, some ve) =>
      match readVal fuel st2.heap ve.1 with
      | none => none
      | some t => some (some (t, ve.2))

/-- One caller-issued mutation: write value `w` to field `k` of the
object at heap index `q`. -/
def applyMut (h : Heap) (mu : Nat × String × JVal) : Heap :=
  setField h mu.1 mu.2.1 mu.2.2

/-- A sequence of caller-issued mutations, applied in order. -/
def applyMuts (h : Heap) (ms : List (Nat × String × JVal)) : Heap :=
  ms.foldl applyMut h

/-- The references of a value lie in the index region `[lo, hi)`. -/
def refsIn (lo hi : Nat) : JVal → Prop
  | JVal.ref r => lo ≤ r ∧ r < hi
  | _ => True

/-- All field values of an object have references in `[lo, hi)`. -/
def objRefsIn (lo hi : Nat) (o : Obj) : Prop :=
  ∀ f ∈ o, refsIn lo hi f.2

/-- Objects stored at indices in `[lo, hi)` only reference `[lo, hi)`. -/
def heapClosedIn (lo hi : Nat) (h : Heap) : Prop :=
  ∀ i o, lo ≤ i → i < hi → h.get? i = some o → objRefsIn lo hi o

/-- Objects at indices at or above `n` reference only indices at or above
`n` (and the heap is append-only above `n`). -/
def segClosed (n : Nat) (h : Heap) : Prop :=
  ∀ i ob, n ≤ i → h.get? i = some ob → objRefsIn n h.length ob

/-- A tiny concrete adapter state: one heap object `{a: 1}` and an empty
session table. -/
def stW : AdapterState := ⟨[[("a", JVal.num 1)]], []⟩

/-- `stW` after `set("sid", {data: ref 0, expiresAt: 10})`. -/
def stW1 : AdapterState :=
  ⟨[[("a", JVal.num 1)], [("a", JVal.num 1)]], [("sid", (JVal.ref 1, 10))]⟩

/-- `stW1` after `get("sid")` allocated the returned clone. -/
def stW2 : AdapterState :=
  ⟨[[("a", JVal.num 1)], [("a", JVal.num 1)], [("a", JVal.num 1)]],
   [("sid", (JVal.ref 1, 10))]⟩

end Memory
end BetterSession

namespace BetterSession

variable {α : Type}

theorem ensureId_effects (env : Env α) (m : MState α) :
    (ensureId env m).2.effects = m.effects := by
  simp only [ensureId]; split_ifs <;> rfl

theorem ensureId_destroyed (env : Env α) (m : MState α) :
    (ensureId env m).2.s.destroyed = m.s.destroyed := by
  simp only [ensureId]; split_ifs <;> rfl

theorem ensureId_data (env : Env α) (m : MState α) :
    (ensureId env m).2.s.data = m.s.data := by
  simp only [ensureId]; split_ifs <;> rfl

theorem ensureId_revision (env : Env α) (m : MState α) :
    (ensureId env m).2.s.revision = m.s.revision := by
  simp only [ensureId]; split_ifs <;> rfl

theorem ensureId_savedRevision (env : Env α) (m : MState α) :
    (ensureId env m).2.s.savedRevision = m.s.savedRevision := by
  simp only [ensureId]; split_ifs <;> rfl

theorem persist_noop_of_committed (env : Env α) (mode : PersistMode)
    (m : MState α) (h : m.s.committed = true) : persist env mode m = m := by
  simp [persist, h]

theorem persistWrite_committed (env : Env α) (m : MState α) :
    (persistWrite env m).s.committed = true := rfl

theorem persistWrite_destroyed (env : Env α) (m : MState α) :
    (persistWrite env m).s.destroyed = m.s.destroyed := by
  simp [persistWrite, ensureId_destroyed]

theorem persistWrite_effects (env : Env α) (m : MState α) :
    (persistWrite env m).effects = m.effects ++
      [Effect.storeSet (ensureId env m).1
         ⟨m.s.data, env.now + env.cfg.ttl⟩,
       Effect.cookieLive (ensureId env m).1 (env.now + env.cfg.ttl)] := by
  simp [persistWrite, ensureId_effects, ensureId_data]

theorem persist_committed (env : Env α) (mode : PersistMode) (m : MState α) :
    (persist env mode m).s.committed = true := by
  cases hc : m.s.committed
  · simp only [persist, hc]
    split_ifs <;> simp_all [persistWrite_committed]
  · simp [persist, hc]

theorem persist_s_destroyed (env : Env α) (mode : PersistMode) (m : MState α) :
    (persist env mode m).s.destroyed = m.s.destroyed := by
  cases hc : m.s.committed
  · simp only [persist, hc]
    split_ifs <;> simp_all [persistWrite_destroyed]
  · simp [persist, hc]

theorem persist_effects_append (env : Env α) (mode : PersistMode) (m : MState α) :
    ∃ t, (persist env mode m).effects = m.effects ++ t := by
  cases hc : m.s.committed
  · by_cases hd : m.s.destroyed = true
    · exact ⟨destroyedEffects env m, by simp [persist, hc, hd]⟩
    · by_cases hw : shouldWrite env mode m = true
      · refine ⟨[Effect.storeSet (ensureId env m).1
            ⟨m.s.data, env.now + env.cfg.ttl⟩,
          Effect.cookieLive (ensureId env m).1 (env.now + env.cfg.ttl)], ?_⟩
        simp [persist, hc, hd, hw, persistWrite_effects]
      · exact ⟨[], by simp [persist, hc, hd, hw]⟩
  · exact ⟨[], by simp [persist, hc]⟩

theorem applyOp_destroy_destroyed (env : Env α) (m : MState α) :
    ((applyOp env Op.destroy m).1).s.destroyed = true := by
  cases hd : m.s.destroyed
  · simp only [applyOp, hd]
    simp only [Bool.false_eq_true, if_false]
    rw [persist_s_destroyed]
    simp [markDirty]
  · simp [applyOp, hd]

theorem applyOp_destroy_ok (env : Env α) (m : MState α) :
    (applyOp env Op.destroy m).2 = true := by
  cases hd : m.s.destroyed <;> simp [applyOp, hd]

theorem clearingOnly_nil : ClearingOnly ([] : List (Effect α)) := by
  intro e he; cases he

theorem clearingOnly_append {l1 l2 : List (Effect α)}
    (h1 : ClearingOnly l1) (h2 : ClearingOnly l2) : ClearingOnly (l1 ++ l2) := by
  intro e he
  rcases List.mem_append.mp he with h | h
  · exact h1 e h
  · exact h2 e h

theorem destroyedEffects_clearing (env : Env α) (m : MState α) :
    ClearingOnly (destroyedEffects env m) := by
  intro e he
  unfold destroyedEffects at he
  rcases List.mem_append.mp he with h | h
  · split at h
    · simp at h; exact Or.inr ⟨_, h⟩
    · cases h
  · split at h
    · simp at h; exact Or.inl h
    · cases h

theorem persist_destroyed_tail (env : Env α) (mode : PersistMode)
    (m : MState α) (hd : m.s.destroyed = true) :
    ∃ t, (persist env mode m).effects = m.effects ++ t ∧ ClearingOnly t ∧
      (persist env mode m).s.destroyed = true := by
  cases hc : m.s.committed
  · exact ⟨destroyedEffects env m,
      by simp [persist, hc, hd], destroyedEffects_clearing env m,
      by rw [persist_s_destroyed]; exact hd⟩
  · exact ⟨[], by simp [persist, hc], clearingOnly_nil,
      by rw [persist_s_destroyed]; exact hd⟩

theorem applyOp_destroyed_tail (env : Env α) (op : Op α) (m : MState α)
    (hd : m.s.destroyed = true) :
    ∃ t, ((applyOp env op m).1).effects = m.effects ++ t ∧ ClearingOnly t ∧
      ((applyOp env op m).1).s.destroyed = true := by
  cases op with
  | mutate f => exact ⟨[], by simp [applyOp, markDirty], clearingOnly_nil,
      by simp [applyOp, markDirty, hd]⟩
  | regenerate => exact ⟨[], by simp [applyOp, regenerateCall, hd], clearingOnly_nil,
      by simp [applyOp, regenerateCall, hd]⟩
  | destroy => exact ⟨[], by simp [applyOp, hd], clearingOnly_nil,
      by simp [applyOp, hd]⟩
  | save => simpa [applyOp] using persist_destroyed_tail env PersistMode.manual m hd

theorem runOps_destroyed_tail (env : Env α) (ops : List (Op α)) (m : MState α)
    (hd : m.s.destroyed = true) :
    ∃ t, ((runOps env ops m).1).effects = m.effects ++ t ∧ ClearingOnly t ∧
      ((runOps env ops m).1).s.destroyed = true := by
  induction ops generalizing m with
  | nil => exact ⟨[], by simp [runOps], clearingOnly_nil, by simp [runOps, hd]⟩
  | cons op rest ih =>
    obtain ⟨t1, he1, hc1, hd1⟩ := applyOp_destroyed_tail env op m hd
    cases hok : (applyOp env op m).2
    · refine ⟨t1, ?_, hc1, ?_⟩
      · simp only [runOps]
        rcases hp : applyOp env op m with ⟨m1, b⟩
        rw [hp] at hok he1 hd1
        cases b
        · simpa using he1
        · cases hok
      · simp only [runOps]
        rcases hp : applyOp env op m with ⟨m1, b⟩
        rw [hp] at hok hd1
        cases b
        · simpa using hd1
        · cases hok
    · obtain ⟨t2, he2, hc2, hd2⟩ := ih ((applyOp env op m).1) hd1
      refine ⟨t1 ++ t2, ?_, clearingOnly_append hc1 hc2, ?_⟩
      · simp only [runOps]
        rcases hp : applyOp env op m with ⟨m1, b⟩
        rw [hp] at hok he1 he2
        cases b
        · cases hok
        · simp only []
          rw [he2, he1, List.append_assoc]
      · simp only [runOps]
        rcases hp : applyOp env op m with ⟨m1, b⟩
        rw [hp] at hok hd2
        cases b
        · cases hok
        · exact hd2

/-- C1 counterexample: a mutation issued after `destroy()` is not blocked —
it succeeds and changes the in-memory data and revision, refuting the
claim that no mutation is permitted once destroyed. -/
theorem destroyed_then_mutate_changes_state :
    (runOps envEager [Op.destroy, Op.mutate Nat.succ] (resolve envEager)).2 = true ∧
    ((runOps envEager [Op.destroy, Op.mutate Nat.succ] (resolve envEager)).1.s.data ≠
      (runOps envEager [Op.destroy] (resolve envEager)).1.s.data) ∧
    ((runOps envEager [Op.destroy, Op.mutate Nat.succ] (resolve envEager)).1.s.revision ≠
      (runOps envEager [Op.destroy] (resolve envEager)).1.s.revision) := by
  refine ⟨rfl, ?_, ?_⟩ <;> decide

/-- C1 amended: once `destroyed` is set it is terminal for persistence —
after any further handler operations and the end-of-request commit, every
newly appended effect is a clearing cookie or a store deletion (never an
`adapter.set` or a live session cookie), and the flag stays set. -/
theorem destroyed_terminal_persistence (env : Env α) (m : MState α)
    (ops : List (Op α)) (hd : m.s.destroyed = true) :
    ∃ t, (persist env PersistMode.auto (runOps env ops m).1).effects =
        m.effects ++ t ∧
      ClearingOnly t ∧
      (persist env PersistMode.auto (runOps env ops m).1).s.destroyed = true := by
  obtain ⟨t1, he1, hc1, hd1⟩ := runOps_destroyed_tail env ops m hd
  obtain ⟨t2, he2, hc2, hd2⟩ :=
    persist_destroyed_tail env PersistMode.auto ((runOps env ops m).1) hd1
  exact ⟨t1 ++ t2, by rw [he2, he1, List.append_assoc],
    clearingOnly_append hc1 hc2, hd2⟩

theorem destroyed_terminal_persistence_witness :
    ∃ t, (persist envEager PersistMode.auto
        (runOps envEager [Op.mutate Nat.succ, Op.save]
          (applyOp envEager Op.destroy (resolve envEager)).1).1).effects =
      (applyOp envEager Op.destroy (resolve envEager)).1.effects ++ t ∧
      ClearingOnly t ∧
      (persist envEager PersistMode.auto
        (runOps envEager [Op.mutate Nat.succ, Op.save]
          (applyOp envEager Op.destroy (resolve envEager)).1).1).s.destroyed = true :=
  destroyed_terminal_persistence envEager _ [Op.mutate Nat.succ, Op.save] (by decide)

/-- C3 counterexample: after a manual `save()` has committed, a single
mutation re-opens the commit, and the end-of-request auto commit performs
a second adapter call and emits a second cookie. -/
theorem save_then_mutate_double_commit :
    ((runOps envEager [Op.save] (resolve envEager)).1.s.committed = true) ∧
    ((runOps envEager [Op.save, Op.mutate Nat.succ] (resolve envEager)).1.effects.length = 2) ∧
    ((persist envEager PersistMode.auto
        (runOps envEager [Op.save, Op.mutate Nat.succ] (resolve envEager)).1).effects.length = 4) := by
  refine ⟨?_, ?_, ?_⟩ <;> decide

/-- C3 amended: the commit step is a no-op whenever `committed` is already
true, so a manual `save()`/`destroy()` pre-empts the auto commit as long as
no later operation marks the session dirty again. -/
theorem commit_step_noop_when_committed (env : Env α) (mode : PersistMode)
    (m : MState α) (h : m.s.committed = true) : persist env mode m = m :=
  persist_noop_of_committed env mode m h

theorem commit_step_noop_when_committed_witness :
    persist envEager PersistMode.auto
        (runOps envEager [Op.save] (resolve envEager)).1 =
      (runOps envEager [Op.save] (resolve envEager)).1 :=
  commit_step_noop_when_committed envEager PersistMode.auto _ (by decide)

/-- C4: `destroy()` is idempotent — a second call returns the exact state
and effect trace of the first, so two calls have the same observable
outcome as one. -/
theorem destroy_idempotent (env : Env α) (m m' : MState α)
    (h : applyOp env Op.destroy m = (m', true)) :
    applyOp env Op.destroy m' = (m', true) := by
  have hd : m'.s.destroyed = true := by
    have hh := applyOp_destroy_destroyed env m
    rw [h] at hh
    exact hh
  simp [applyOp, hd]

theorem destroy_idempotent_witness :
    applyOp envEager Op.destroy ((applyOp envEager Op.destroy (resolve envEager)).1) =
      ((applyOp envEager Op.destroy (resolve envEager)).1, true) :=
  destroy_idempotent envEager (resolve envEager) _ (by decide)

/-- C6: on a non-destroyed session, `regenerate()` returns the freshly
generated id, assigns it, sets `isNew`, increments the revision, keeps the
data, and immediately appends the deletion of the previous id's record
when one existed and differs — before the call returns, not at commit. -/
theorem regenerate_spec (env : Env α) (m : MState α)
    (h : m.s.destroyed = false) :
    ∃ m', regenerateCall env m = some (env.genId m.gen, m') ∧
      m'.s.id = some (env.genId m.gen) ∧ m'.s.isNew = true ∧
      m'.s.revision = m.s.revision + 1 ∧ m'.s.data = m.s.data ∧
      m'.effects = m.effects ++
        (if m.s.id ≠ some (env.genId m.gen) ∧ strTruthy m.s.id = true
         then [Effect.storeDelete (m.s.id.getD "")] else []) := by
  simp only [regenerateCall, h, Bool.false_eq_true, if_false]
  refine ⟨_, rfl, ?_, ?_, ?_, ?_, ?_⟩ <;>
    split_ifs <;> simp_all [markDirty]

theorem regenerate_spec_witness :
    ∃ m', regenerateCall envEager (resolve envEager) =
        some (envEager.genId (resolve envEager).gen, m') ∧
      m'.s.id = some (envEager.genId (resolve envEager).gen) ∧ m'.s.isNew = true ∧
      m'.s.revision = (resolve envEager).s.revision + 1 ∧
      m'.s.data = (resolve envEager).s.data ∧
      m'.effects = (resolve envEager).effects ++
        (if (resolve envEager).s.id ≠ some (envEager.genId (resolve envEager).gen) ∧
            strTruthy (resolve envEager).s.id = true
         then [Effect.storeDelete ((resolve envEager).s.id.getD "")] else []) :=
  regenerate_spec envEager (resolve envEager) (by decide)

/-- C7: `regenerate()` after `destroy()` fails with the invalid-state
error and leaves the session state exactly unchanged. -/
theorem regenerate_after_destroy_fails (env : Env α) (m : MState α) :
    applyOp env Op.regenerate ((applyOp env Op.destroy m).1) =
      (((applyOp env Op.destroy m).1), false) := by
  have hd := applyOp_destroy_destroyed env m
  generalize (applyOp env Op.destroy m).1 = m1 at hd ⊢
  simp [applyOp, regenerateCall, hd]

theorem storedFound_truthy (env : Env α) (h : storedFound env = true) :
    strTruthy env.incomingId = true := by
  unfold storedFound resolveStored at h
  by_cases ht : strTruthy env.incomingId = true
  · exact ht
  · simp [ht] at h

theorem resolve_reachInv (env : Env α) : ReachInv env (resolve env) := by
  unfold resolve
  cases h : resolveStored env with
  | some record =>
      exact ⟨Nat.le_refl _, fun _ _ _ => by simp [storedFound, h]⟩
  | none => exact ⟨Nat.le_refl _, fun _ hnew _ => by simp at hnew⟩

theorem persist_reachInv (env : Env α) (mode : PersistMode) (m : MState α)
    (hi : ReachInv env m) : ReachInv env (persist env mode m) := by
  cases hc : m.s.committed
  · by_cases hd : m.s.destroyed = true
    · constructor
      · simp [persist, hc, hd]
      · intro hcf
        simp [persist, hc, hd] at hcf
    · by_cases hw : shouldWrite env mode m = true
      · constructor
        · simp [persist, hc, hd, hw, persistWrite, ensureId_revision,
            ensureId_savedRevision]
        · intro hcf
          have : (persist env mode m).s.committed = true :=
            persist_committed env mode m
          rw [hcf] at this
          cases this
      · constructor
        · simpa [persist, hc, hd, hw] using hi.1
        · intro hcf
          have : (persist env mode m).s.committed = true :=
            persist_committed env mode m
          rw [hcf] at this
          cases this
  · simpa [persist, hc] using hi

theorem applyOp_reachInv (env : Env α) (op : Op α) (m : MState α)
    (hi : ReachInv env m) : ReachInv env ((applyOp env op m).1) := by
  cases op with
  | mutate f =>
      refine ⟨?_, ?_⟩
      · simp only [applyOp, markDirty]
        exact Nat.le_succ_of_le hi.1
      · intro _ _ heq
        simp only [applyOp, markDirty] at heq
        have := hi.1
        omega
  | regenerate =>
      cases hdm : m.s.destroyed
      · refine ⟨?_, ?_⟩
        · simp only [applyOp, regenerateCall, hdm]
          simp only [Bool.false_eq_true, if_false]
          split_ifs <;> simp [markDirty] <;> exact Nat.le_succ_of_le hi.1
        · intro _ hnew
          simp only [applyOp, regenerateCall, hdm] at hnew
          simp only [Bool.false_eq_true, if_false] at hnew
          split_ifs at hnew <;> simp [markDirty] at hnew
      · simpa [applyOp, regenerateCall, hdm] using hi
  | destroy =>
      cases hdm : m.s.destroyed
      · simp only [applyOp, hdm, Bool.false_eq_true, if_false]
        apply persist_reachInv
        refine ⟨?_, ?_⟩
        · simp only [markDirty]
          exact Nat.le_succ_of_le hi.1
        · intro _ _ heq
          simp only [markDirty] at heq
          have := hi.1
          omega
      · simpa [applyOp, hdm] using hi
  | save =>
      simp only [applyOp]
      exact persist_reachInv env PersistMode.manual m hi

theorem runOps_reachInv (env : Env α) (ops : List (Op α)) (m : MState α)
    (hi : ReachInv env m) : ReachInv env ((runOps env ops m).1) := by
  induction ops generalizing m with
  | nil => simpa [runOps] using hi
  | cons op rest ih =>
      have h1 := applyOp_reachInv env op m hi
      simp only [runOps]
      rcases hp : applyOp env op m with ⟨m1, b⟩
      rw [hp] at h1
      cases b
      · exact h1
      · exact ih m1 h1

theorem shouldWrite_eq_specAutoWrite (env : Env α) (m : MState α)
    (hi : ReachInv env m) (hc : m.s.committed = false) :
    shouldWrite env PersistMode.auto m = specAutoWrite env m := by
  unfold shouldWrite specAutoWrite
  cases hn : m.s.isNew
  · simp only [Bool.false_eq_true, if_false]
    cases hdirty : (m.s.savedRevision != m.s.revision)
    · have heq : m.s.savedRevision = m.s.revision := by
        simpa using hdirty
      have hsf : storedFound env = true := hi.2 hc hn heq
      have hti : strTruthy env.incomingId = true := storedFound_truthy env hsf
      simp [hsf, hti]
    · simp
  · simp

/-- C2: in the auto commit on a live, uncommitted state, a store write
happens iff the spec's condition holds, and otherwise the commit adds no
effect at all. -/
theorem auto_commit_write_iff (env : Env α) (ops : List (Op α))
    (mid : MState α)
    (hrun : runOps env ops (resolve env) = (mid, true))
    (hc : mid.s.committed = false) (hd : mid.s.destroyed = false) :
    ∃ t, (persist env PersistMode.auto mid).effects = mid.effects ++ t ∧
      ((∃ i r, Effect.storeSet i r ∈ t) ↔ specAutoWrite env mid = true) ∧
      (specAutoWrite env mid = false → t = []) := by
  have hi : ReachInv env mid := by
    have h0 := runOps_reachInv env ops (resolve env) (resolve_reachInv env)
    rw [hrun] at h0
    exact h0
  have hbr := shouldWrite_eq_specAutoWrite env mid hi hc
  have hdm : mid.s.destroyed = true → False := by
    intro h; rw [h] at hd; cases hd
  cases hw : shouldWrite env PersistMode.auto mid
  · refine ⟨[], ?_, ?_, fun _ => rfl⟩
    · simp [persist, hc, hd, hw]
    · rw [← hbr, hw]
      constructor
      · rintro ⟨i, r, hmem⟩
        cases hmem
      · intro h
        cases h
  · refine ⟨[Effect.storeSet (ensureId env mid).1
        ⟨mid.s.data, env.now + env.cfg.ttl⟩,
      Effect.cookieLive (ensureId env mid).1 (env.now + env.cfg.ttl)], ?_, ?_, ?_⟩
    · simp only [persist, hc, hd, hw]
      simp [persistWrite_effects]
    · rw [← hbr, hw]
      simp only [iff_true]
      exact ⟨(ensureId env mid).1, ⟨mid.s.data, env.now + env.cfg.ttl⟩, by simp⟩
    · intro hfalse
      rw [← hbr, hw] at hfalse
      cases hfalse

theorem auto_commit_write_iff_witness :
    ∃ t, (persist envRollingHit PersistMode.auto
          (resolve envRollingHit)).effects =
        (resolve envRollingHit).effects ++ t ∧
      ((∃ i r, Effect.storeSet i r ∈ t) ↔
        specAutoWrite envRollingHit (resolve envRollingHit) = true) ∧
      (specAutoWrite envRollingHit (resolve envRollingHit) = false → t = []) :=
  auto_commit_write_iff envRollingHit [] (resolve envRollingHit) rfl
    (by decide) (by decide)

/-- C5 counterexample: `createOnRequest = false`, a request bearing a
valid session cookie, a handler that performs no session call at all —
yet the commit writes the store and emits a live `Set-Cookie` (the
rolling TTL refresh). -/
theorem lazy_noop_read_cex :
    envRollingHit.cfg.createOnRequest = false ∧
    (runRequest envRollingHit []).map (fun m => m.effects) =
      some [Effect.storeSet "abc" ⟨7, 150⟩, Effect.cookieLive "abc" 150] := by
  refine ⟨rfl, ?_⟩
  decide

/-- C5 amended: with `createOnRequest = false` and no (truthy) incoming
session id, a request whose handler performs no session operation
produces no effect: no `Set-Cookie` value and no adapter call. -/
theorem lazy_noop_read (env : Env α)
    (hcor : env.cfg.createOnRequest = false)
    (hin : strTruthy env.incomingId = false) :
    ∃ fin, runRequest env [] = some fin ∧ fin.effects = [] := by
  have hrs : resolveStored env = none := by
    simp [resolveStored, hin]
  have hres : resolve env = freshState env none 0 [] := by
    simp [resolve, freshState, hrs, hcor, hin]
  refine ⟨_, rfl, ?_⟩
  simp only [runRequest, runOps, hres]
  simp [persist, freshState, shouldWrite, hcor, strTruthy]

theorem lazy_noop_read_witness :
    ∃ fin, runRequest envLazy [] = some fin ∧ fin.effects = [] :=
  lazy_noop_read envLazy rfl rfl

/-- C10: a request with a (truthy) incoming id that resolves to no stored
record, under `createOnRequest = true` and an unmutating handler, emits
exactly two `Set-Cookie` values: a clearing cookie from resolution and a
live cookie for the fresh id from the commit, around the store write. -/
theorem stale_cookie_two_cookies (env : Env α) (sid : String)
    (hin : env.incomingId = some sid) (hne : sid.isEmpty = false)
    (hmiss : env.store sid = none)
    (hcor : env.cfg.createOnRequest = true)
    (hgen : (env.genId 0).isEmpty = false) :
    ∃ fin, runRequest env [] = some fin ∧
      fin.effects = [Effect.cookieExpired,
        Effect.storeSet (env.genId 0)
          ⟨env.initialData, env.now + env.cfg.ttl⟩,
        Effect.cookieLive (env.genId 0) (env.now + env.cfg.ttl)] := by
  have htr : strTruthy env.incomingId = true := by
    simp [strTruthy, hin, hne]
  have hrs : resolveStored env = none := by
    simp [resolveStored, htr, hin, hmiss]
  have hres : resolve env =
      freshState env (some (env.genId 0)) 1 [Effect.cookieExpired] := by
    simp [resolve, freshState, hrs, hcor, htr]
  refine ⟨_, rfl, ?_⟩
  simp only [runRequest, runOps, hres]
  have hsw : shouldWrite env PersistMode.auto
      (freshState env (some (env.genId 0)) 1 [Effect.cookieExpired]) = true := by
    simp [shouldWrite, freshState, hcor]
  simp only [freshState] at hsw
  simp [persist, hsw, freshState, persistWrite, ensureId, strTruthy, hgen]

theorem stale_cookie_two_cookies_witness :
    ∃ fin, runRequest envStale [] = some fin ∧
      fin.effects = [Effect.cookieExpired,
        Effect.storeSet (envStale.genId 0)
          ⟨envStale.initialData, envStale.now + envStale.cfg.ttl⟩,
        Effect.cookieLive (envStale.genId 0)
          (envStale.now + envStale.cfg.ttl)] :=
  stale_cookie_two_cookies envStale "stale" rfl rfl rfl rfl (by decide)

end BetterSession

namespace BetterSession
namespace Cookie

theorem setKey_lookup (m : List (List Char × List Char))
    (k' v k : List Char) :
    lookupKey (setKey m k' v) k =
      if k = k' then some v else lookupKey m k := by
  induction m with
  | nil =>
      simp only [setKey, lookupKey, List.find?]
      by_cases h : k = k'
      · subst h; simp
      · have hb : (k' == k) = false := by
          simp only [beq_eq_false_iff_ne, ne_eq]
          exact fun hh => h hh.symm
        simp [hb, h]
  | cons p rest ih =>
      simp only [setKey]
      by_cases hp : p.1 = k'
      · simp only [if_pos hp, lookupKey, List.find?]
        by_cases h : k = k'
        · subst h
          have hb : (k == k) = true := by simp
          simp [hb]
        · have hb : (k' == k) = false := by
            simp only [beq_eq_false_iff_ne, ne_eq]
            exact fun hh => h hh.symm
          have hpk : (p.1 == k) = false := by
            simp only [beq_eq_false_iff_ne, ne_eq]
            exact fun hh => h ((hp.symm.trans hh).symm)
          simp [hb, hpk, h]
      · simp only [if_neg hp, lookupKey, List.find?]
        by_cases hpk : p.1 = k
        · have hb : (p.1 == k) = true := by simp [hpk]
          have hkk : ¬ k = k' := fun hh => hp (hpk.trans hh)
          simp [hb, hkk]
        · have hb : (p.1 == k) = false := by simp [hpk]
          simp only [hb]
          simpa [lookupKey, List.find?] using ih

theorem find?_append_of_some {β : Type} (l1 l2 : List β) (f : β → Bool)
    (q : β) (h : l1.find? f = some q) : (l1 ++ l2).find? f = some q := by
  induction l1 with
  | nil => simp [List.find?] at h
  | cons a l ih =>
      simp only [List.find?] at h ⊢
      cases hf : f a
      · rw [hf] at h
        simp only [List.cons_append, List.find?, hf]
        exact ih h
      · rw [hf] at h
        simp only [List.cons_append, List.find?, hf]
        exact h

theorem find?_append_of_none {β : Type} (l1 l2 : List β) (f : β → Bool)
    (h : l1.find? f = none) : (l1 ++ l2).find? f = l2.find? f := by
  induction l1 with
  | nil => simp
  | cons a l ih =>
      simp only [List.find?] at h
      cases hf : f a
      · rw [hf] at h
        simp only [List.cons_append, List.find?, hf]
        exact ih h
      · rw [hf] at h
        cases h

theorem foldl_setKey_lookup (ps : List (List Char × List Char))
    (acc : List (List Char × List Char)) (k : List Char) :
    lookupKey (List.foldl (fun a p => setKey a p.1 p.2) acc ps) k =
      match ps.reverse.find? (fun p => p.1 == k) with
      | some q => some q.2
      | none => lookupKey acc k := by
  induction ps generalizing acc with
  | nil => simp [List.find?]
  | cons p rest ih =>
      simp only [List.foldl_cons, List.reverse_cons]
      rw [ih]
      cases hf : rest.reverse.find? (fun p => p.1 == k) with
      | some q =>
          rw [find?_append_of_some _ _ _ _ hf]
      | none =>
          rw [find?_append_of_none _ _ _ hf]
          rw [setKey_lookup]
          cases hpk : ((p.1 : List Char) == k)
          · have hne : ¬ k = p.1 := by
              intro hh
              rw [hh] at hpk
              simp at hpk
            simp [List.find?, hpk, hne]
          · have heq : k = p.1 := by
              have hpe : (p.1 : List Char) = k := by
                exact beq_iff_eq.mp hpk
              exact hpe.symm
            simp [List.find?, hpk, heq]

/-- C8: `parseCookies` is total (never throws), yields the empty mapping
on a null header, and for every header and cookie name the mapping's value
is the decoded-or-raw value of the last `;`-separated pair whose trimmed
nonempty name matches — duplicates resolve to the last occurrence. -/
theorem parseCookies_spec (decode : List Char → Option (List Char)) :
    parseCookies decode none = [] ∧
    ∀ (header k : List Char),
      lookupKey (parseCookies decode (some header)) k =
        (((splitOnChar ';' header).filterMap (parsePair decode)).reverse.find?
          (fun p => p.1 == k)).map (fun p => p.2) := by
  refine ⟨rfl, ?_⟩
  intro header k
  by_cases hemp : header.isEmpty
  · have hnil : header = [] := by simpa [List.isEmpty_iff] using hemp
    subst hnil
    simp [parseCookies, lookupKey, List.find?, splitOnChar, parsePair,
      breakAtFirst]
  · simp only [parseCookies, hemp, Bool.false_eq_true, if_false]
    rw [foldl_setKey_lookup]
    cases hf : ((splitOnChar ';' header).filterMap
        (parsePair decode)).reverse.find? (fun p => p.1 == k) with
    | some q => simp
    | none => simp [lookupKey, List.find?]

end Cookie
end BetterSession

namespace BetterSession
namespace Memory

theorem setField_length (h : Heap) (q : Nat) (k : String) (v : JVal) :
    (setField h q k v).length = h.length := by
  induction h generalizing q with
  | nil => rfl
  | cons o rest ih =>
      cases q with
      | zero => simp [setField]
      | succ n => simp [setField, ih]

theorem setField_get?_ne (h : Heap) (q : Nat) (k : String) (v : JVal)
    (i : Nat) (hne : i ≠ q) : (setField h q k v).get? i = h.get? i := by
  induction h generalizing q i with
  | nil => rfl
  | cons o rest ih =>
      cases q with
      | zero =>
          cases i with
          | zero => exact absurd rfl hne
          | succ j => simp [setField]
      | succ n =>
          cases i with
          | zero => simp [setField]
          | succ j =>
              simp only [setField, List.get?]
              exact ih n j (fun hh => hne (by rw [hh]))

theorem msGet_msSet_self (s : List (String × (JVal × Nat))) (k : String)
    (v : JVal × Nat) : msGet (msSet s k v) k = some v := by
  induction s with
  | nil => simp [msSet, msGet, List.find?]
  | cons p rest ih =>
      by_cases hp : p.1 = k
      · simp [msSet, msGet, List.find?, hp]
      · have hb : (p.1 == k) = false := by simp [hp]
        simp only [msSet, if_neg hp, msGet, List.find?, hb]
        simpa [msGet] using ih

theorem applyMuts_length (ms : List (Nat × String × JVal)) (h : Heap) :
    (applyMuts h ms).length = h.length := by
  induction ms generalizing h with
  | nil => rfl
  | cons mu rest ih =>
      simp only [applyMuts, List.foldl_cons] at ih ⊢
      rw [ih, applyMut, setField_length]

theorem readVal_frame (lo hi q : Nat) (k : String) (w : JVal)
    (hq : q < lo ∨ hi ≤ q) (h : Heap) (hcl : heapClosedIn lo hi h)
    (fuel : Nat) :
    (∀ v, refsIn lo hi v →
      readVal fuel (setField h q k w) v = readVal fuel h v) ∧
    (∀ l, objRefsIn lo hi l →
      readFields fuel (setField h q k w) l = readFields fuel h l) := by
  induction fuel with
  | zero =>
      constructor
      · intro v _; rfl
      · intro l _
        induction l with
        | nil => rfl
        | cons f rest ihl =>
            simp only [readFields, optMapList, readVal] at ihl ⊢
  | succ n ih =>
      have hval : ∀ v, refsIn lo hi v →
          readVal (n + 1) (setField h q k w) v = readVal (n + 1) h v := by
        intro v hr
        cases v with
        | num a => rfl
        | str a => rfl
        | ref r =>
            obtain ⟨hlo, hhi⟩ := hr
            have hner : r ≠ q := by
              rcases hq with hql | hqh
              · omega
              · omega
            simp only [readVal, setField_get?_ne h q k w r hner]
            cases hget : h.get? r with
            | none => rfl
            | some fields =>
                have hof : objRefsIn lo hi fields := hcl r fields hlo hhi hget
                have hfe := (ih).2 fields hof
                simp only [readFields] at hfe
                dsimp only
                rw [hfe]
      refine ⟨hval, ?_⟩
      intro l hl
      induction l with
      | nil => rfl
      | cons f rest ihl =>
          have hf : refsIn lo hi f.2 := hl f (by simp)
          have hrest : objRefsIn lo hi rest := by
            intro g hg
            exact hl g (by simp [hg])
          have h1 := hval f.2 hf
          have h2 := ihl hrest
          simp only [readFields, optMapList] at h2 ⊢
          rw [h1, h2]

theorem refsIn_mono {lo1 hi1 lo2 hi2 : Nat} (hlo : lo2 ≤ lo1)
    (hhi : hi1 ≤ hi2) (v : JVal) (h : refsIn lo1 hi1 v) :
    refsIn lo2 hi2 v := by
  cases v with
  | ref r => exact ⟨Nat.le_trans hlo h.1, Nat.lt_of_lt_of_le h.2 hhi⟩
  | num n => trivial
  | str s => trivial

theorem objRefsIn_mono {lo1 hi1 lo2 hi2 : Nat} (hlo : lo2 ≤ lo1)
    (hhi : hi1 ≤ hi2) (o : Obj) (h : objRefsIn lo1 hi1 o) :
    objRefsIn lo2 hi2 o :=
  fun f hf => refsIn_mono hlo hhi f.2 (h f hf)

theorem setField_closed_out (lo hi q : Nat) (k : String) (w : JVal)
    (hq : q < lo ∨ hi ≤ q) (h : Heap) (hcl : heapClosedIn lo hi h) :
    heapClosedIn lo hi (setField h q k w) := by
  intro i o hlo hhi hget
  have hne : i ≠ q := by omega
  rw [setField_get?_ne h q k w i hne] at hget
  exact hcl i o hlo hhi hget

theorem applyMuts_frame (lo hi : Nat) (ms : List (Nat × String × JVal))
    (hms : ∀ mu ∈ ms, mu.1 < lo ∨ hi ≤ mu.1) (h : Heap)
    (hcl : heapClosedIn lo hi h) :
    heapClosedIn lo hi (applyMuts h ms) ∧
    (∀ fuel v, refsIn lo hi v →
      readVal fuel (applyMuts h ms) v = readVal fuel h v) := by
  induction ms generalizing h with
  | nil => exact ⟨hcl, fun _ _ _ => rfl⟩
  | cons mu rest ih =>
      have hmu : mu.1 < lo ∨ hi ≤ mu.1 := hms mu (by simp)
      have hrest : ∀ m ∈ rest, m.1 < lo ∨ hi ≤ m.1 :=
        fun m hm => hms m (by simp [hm])
      have hcl1 : heapClosedIn lo hi (setField h mu.1 mu.2.1 mu.2.2) :=
        setField_closed_out lo hi mu.1 mu.2.1 mu.2.2 hmu h hcl
      obtain ⟨hclr, hrd⟩ := ih hrest (setField h mu.1 mu.2.1 mu.2.2) hcl1
      refine ⟨?_, ?_⟩
      · simpa [applyMuts, applyMut] using hclr
      · intro fuel v hv
        have h1 := hrd fuel v hv
        have h2 := (readVal_frame lo hi mu.1 mu.2.1 mu.2.2 hmu h hcl fuel).1 v hv
        simp only [applyMuts, List.foldl_cons, applyMut] at h1 ⊢
        rw [h1, h2]

theorem get?_lt_length {β : Type} {l : List β} {i : Nat} {a : β}
    (h : l.get? i = some a) : i < l.length := by
  by_contra hge
  rw [List.get?_eq_none.mpr (by omega)] at h
  cases h

theorem writeVal_spec (fuel : Nat) :
    (∀ t g g' v, writeVal fuel t g = some (g', v) →
      (∃ ext, g' = g ++ ext) ∧ refsIn g.length g'.length v ∧
        segClosed g.length g') ∧
    (∀ ts g g2 o, writeFields fuel ts g = some (g2, o) →
      (∃ ext, g2 = g ++ ext) ∧ objRefsIn g.length g2.length o ∧
        segClosed g.length g2) := by
  induction fuel with
  | zero =>
      constructor
      · intro t g g' v hw; cases hw
      · intro ts g g2 o hw
        cases ts with
        | nil =>
            simp only [writeFields, optFoldFields] at hw
            injection hw with hp
            injection hp with h1 h2
            subst h1; subst h2
            refine ⟨⟨[], by simp⟩, ?_, ?_⟩
            · intro f hf; cases hf
            · intro i ob hi hget
              have := get?_lt_length hget
              omega
        | cons f rest =>
            simp only [writeFields, optFoldFields, writeVal] at hw
            exact Option.noConfusion hw
  | succ n ih =>
      have hval : ∀ t g g' v, writeVal (n + 1) t g = some (g', v) →
          (∃ ext, g' = g ++ ext) ∧ refsIn g.length g'.length v ∧
            segClosed g.length g' := by
        intro t g g' v hw
        cases t with
        | num a =>
            simp only [writeVal] at hw
            injection hw with hp
            injection hp with h1 h2
            subst h1; subst h2
            refine ⟨⟨[], by simp⟩, trivial, ?_⟩
            intro i ob hi hget
            have := get?_lt_length hget
            omega
        | str a =>
            simp only [writeVal] at hw
            injection hw with hp
            injection hp with h1 h2
            subst h1; subst h2
            refine ⟨⟨[], by simp⟩, trivial, ?_⟩
            intro i ob hi hget
            have := get?_lt_length hget
            omega
        | obj ts =>
            simp only [writeVal] at hw
            cases hfold : optFoldFields (writeVal n) ts g with
            | none => rw [hfold] at hw; cases hw
            | some gw =>
                rw [hfold] at hw
                injection hw with hp
                injection hp with h1 h2
                subst h1; subst h2
                obtain ⟨⟨ext, hext⟩, hobj, hseg⟩ := ih.2 ts g gw.1 gw.2 hfold
                have hlen : g.length ≤ gw.1.length := by
                  rw [hext]; simp
                refine ⟨⟨ext ++ [gw.2], by rw [hext]; simp⟩, ?_, ?_⟩
                · exact ⟨hlen, by simp⟩
                · intro i ob hi hget
                  have hilt := get?_lt_length hget
                  simp only [List.length_append, List.length_cons,
                    List.length_nil] at hilt
                  by_cases hcase : i < gw.1.length
                  · rw [List.get?_append hcase] at hget
                    exact objRefsIn_mono (Nat.le_refl _) (by simp)
                      ob (hseg i ob hi hget)
                  · have hieq : i = gw.1.length := by omega
                    subst hieq
                    rw [List.get?_concat_length] at hget
                    injection hget with hob
                    subst hob
                    exact objRefsIn_mono (Nat.le_refl _) (by simp) _ hobj
      refine ⟨hval, ?_⟩
      intro ts
      induction ts with
      | nil =>
          intro g g2 o hw
          simp only [writeFields, optFoldFields] at hw
          injection hw with hp
          injection hp with h1 h2
          subst h1; subst h2
          refine ⟨⟨[], by simp⟩, ?_, ?_⟩
          · intro f hf; cases hf
          · intro i ob hi hget
            have := get?_lt_length hget
            omega
      | cons f rest ihl =>
          intro g g2 o hw
          simp only [writeFields, optFoldFields] at hw
          cases hv : writeVal (n + 1) f.2 g with
          | none => rw [hv] at hw; cases hw
          | some gv =>
              rw [hv] at hw
              cases hr : optFoldFields (writeVal (n + 1)) rest gv.1 with
              | none =>
                  simp only [hr] at hw
                  exact Option.noConfusion hw
              | some gw =>
                  simp only [hr] at hw
                  injection hw with hp
                  injection hp with h1 h2
                  subst h1; subst h2
                  obtain ⟨⟨ext1, hext1⟩, hv1, hseg1⟩ := hval f.2 g gv.1 gv.2 hv
                  obtain ⟨⟨ext2, hext2⟩, ho2, hseg2⟩ :=
                    ihl gv.1 gw.1 gw.2 (by simpa [writeFields] using hr)
                  have hlen1 : g.length ≤ gv.1.length := by rw [hext1]; simp
                  have hlen2 : gv.1.length ≤ gw.1.length := by rw [hext2]; simp
                  refine ⟨⟨ext1 ++ ext2, by rw [hext2, hext1]; simp⟩, ?_, ?_⟩
                  · intro fld hfld
                    rcases List.mem_cons.mp hfld with hh | hh
                    · subst hh
                      exact refsIn_mono (Nat.le_refl _) hlen2 gv.2 hv1
                    · exact refsIn_mono hlen1 (Nat.le_refl _) fld.2 (ho2 fld hh)
                  · intro i ob hi hget
                    by_cases hcase : i < gv.1.length
                    · have hg : gw.1.get? i = gv.1.get? i := by
                        rw [hext2, List.get?_append hcase]
                      rw [hg] at hget
                      exact objRefsIn_mono (Nat.le_refl _) hlen2 ob
                        (hseg1 i ob hi hget)
                    · exact objRefsIn_mono hlen1 (Nat.le_refl _) ob
                        (hseg2 i ob (by omega) hget)

theorem readVal_mono (fuel : Nat) :
    (∀ (g ext : Heap) (v : JVal) (t : JTree), readVal fuel g v = some t →
      readVal fuel (g ++ ext) v = some t) ∧
    (∀ (g ext : Heap) (l : Obj) (ts : List (String × JTree)),
      readFields fuel g l = some ts →
      readFields fuel (g ++ ext) l = some ts) := by
  induction fuel with
  | zero =>
      constructor
      · intro g ext v t hr; cases hr
      · intro g ext l ts hr
        cases l with
        | nil => exact hr
        | cons f rest =>
            simp [readFields, optMapList, readVal] at hr
  | succ n ih =>
      have hval : ∀ (g ext : Heap) (v : JVal) (t : JTree),
          readVal (n + 1) g v = some t →
          readVal (n + 1) (g ++ ext) v = some t := by
        intro g ext v t hr
        cases v with
        | num a => exact hr
        | str a => exact hr
        | ref r =>
            simp only [readVal] at hr ⊢
            cases hget : g.get? r with
            | none => rw [hget] at hr; cases hr
            | some fields =>
                rw [hget] at hr
                dsimp only at hr
                have hlt := get?_lt_length hget
                rw [List.get?_append hlt, hget]
                dsimp only
                cases hfr : optMapList (fun f =>
                    (readVal n g f.2).map (fun t => (f.1, t))) fields with
                | none => rw [hfr] at hr; cases hr
                | some ts0 =>
                    rw [hfr] at hr
                    have hm := ih.2 g ext fields ts0
                      (by simpa [readFields] using hfr)
                    simp only [readFields] at hm
                    rw [hm]
                    exact hr
      refine ⟨hval, ?_⟩
      intro g ext l ts hr
      induction l generalizing ts with
      | nil => exact hr
      | cons f rest ihl =>
          simp only [readFields, optMapList] at hr ⊢
          cases h1 : readVal (n + 1) g f.2 with
          | none => rw [h1] at hr; cases hr
          | some t1 =>
              rw [h1] at hr
              cases h2 : optMapList (fun f =>
                  (readVal (n + 1) g f.2).map (fun t => (f.1, t))) rest with
              | none => rw [h2] at hr; simp at hr
              | some ts2 =>
                  rw [h2] at hr
                  rw [hval g ext f.2 t1 h1]
                  have := ihl ts2 (by simpa [readFields] using h2)
                  simp only [readFields] at this
                  rw [this]
                  exact hr

theorem read_write_succeeds (fuel : Nat) :
    (∀ (h : Heap) (v : JVal) (t : JTree), readVal fuel h v = some t →
      ∀ g, (writeVal fuel t g).isSome = true) ∧
    (∀ (h : Heap) (l : Obj) (ts : List (String × JTree)),
      readFields fuel h l = some ts →
      ∀ g, (writeFields fuel ts g).isSome = true) := by
  induction fuel with
  | zero =>
      constructor
      · intro h v t hr; cases hr
      · intro h l ts hr g
        cases l with
        | nil =>
            simp only [readFields, optMapList] at hr
            injection hr with hts
            subst hts
            simp [writeFields, optFoldFields]
        | cons f rest =>
            simp [readFields, optMapList, readVal] at hr
  | succ n ih =>
      have hval : ∀ (h : Heap) (v : JVal) (t : JTree),
          readVal (n + 1) h v = some t →
          ∀ g, (writeVal (n + 1) t g).isSome = true := by
        intro h v t hr g
        cases v with
        | num a =>
            simp only [readVal] at hr
            injection hr with ht
            subst ht
            simp [writeVal]
        | str a =>
            simp only [readVal] at hr
            injection hr with ht
            subst ht
            simp [writeVal]
        | ref r =>
            simp only [readVal] at hr
            cases hget : h.get? r with
            | none => rw [hget] at hr; cases hr
            | some fields =>
                rw [hget] at hr
                dsimp only at hr
                cases hfr : optMapList (fun f =>
                    (readVal n h f.2).map (fun t => (f.1, t))) fields with
                | none => rw [hfr] at hr; cases hr
                | some ts0 =>
                    rw [hfr] at hr
                    injection hr with ht
                    subst ht
                    have hsucc := ih.2 h fields ts0
                      (by simpa [readFields] using hfr) g
                    simp only [writeVal]
                    simp only [writeFields] at hsucc
                    cases hfo : optFoldFields (writeVal n) ts0 g with
                    | none => rw [hfo] at hsucc; cases hsucc
                    | some gw => simp
      refine ⟨hval, ?_⟩
      intro h l ts hr g
      induction l generalizing ts g with
      | nil =>
          simp only [readFields, optMapList] at hr
          injection hr with hts
          subst hts
          simp [writeFields, optFoldFields]
      | cons f rest ihl =>
          simp only [readFields, optMapList] at hr
          cases h1 : readVal (n + 1) h f.2 with
          | none => rw [h1] at hr; cases hr
          | some t1 =>
              rw [h1] at hr
              cases h2 : optMapList (fun f =>
                  (readVal (n + 1) h f.2).map (fun t => (f.1, t))) rest with
              | none => rw [h2] at hr; simp at hr
              | some ts2 =>
                  rw [h2] at hr
                  injection hr with hts
                  subst hts
                  simp only [writeFields, optFoldFields]
                  have hw1 := hval h f.2 t1 h1 g
                  cases hwv : writeVal (n + 1) t1 g with
                  | none => rw [hwv] at hw1; cases hw1
                  | some gv =>
                      have hw2 := ihl ts2 (by simpa [readFields] using h2) gv.1
                      simp only [writeFields] at hw2
                      cases hwf : optFoldFields (writeVal (n + 1)) ts2 gv.1 with
                      | none => rw [hwf] at hw2; cases hw2
                      | some gw => dsimp only; rw [hwf]; dsimp only; simp

theorem write_readback (fuel : Nat) :
    (∀ (t : JTree) (g g' : Heap) (v : JVal),
      writeVal fuel t g = some (g', v) →
      ∀ ext, readVal fuel (g' ++ ext) v = some t) ∧
    (∀ (ts : List (String × JTree)) (g g2 : Heap) (o : Obj),
      writeFields fuel ts g = some (g2, o) →
      ∀ ext, readFields fuel (g2 ++ ext) o = some ts) := by
  induction fuel with
  | zero =>
      constructor
      · intro t g g' v hw; cases hw
      · intro ts g g2 o hw ext
        cases ts with
        | nil =>
            simp only [writeFields, optFoldFields] at hw
            injection hw with hp
            injection hp with h1 h2
            subst h1; subst h2
            rfl
        | cons f rest =>
            simp [writeFields, optFoldFields, writeVal] at hw
  | succ n ih =>
      have hval : ∀ (t : JTree) (g g' : Heap) (v : JVal),
          writeVal (n + 1) t g = some (g', v) →
          ∀ ext, readVal (n + 1) (g' ++ ext) v = some t := by
        intro t g g' v hw ext
        cases t with
        | num a =>
            simp only [writeVal] at hw
            injection hw with hp
            injection hp with h1 h2
            subst h1; subst h2
            rfl
        | str a =>
            simp only [writeVal] at hw
            injection hw with hp
            injection hp with h1 h2
            subst h1; subst h2
            rfl
        | obj ts =>
            simp only [writeVal] at hw
            cases hfold : optFoldFields (writeVal n) ts g with
            | none => rw [hfold] at hw; cases hw
            | some gw =>
                rw [hfold] at hw
                injection hw with hp
                injection hp with h1 h2
                subst h1; subst h2
                simp only [readVal]
                have hgetobj : ((gw.1 ++ [gw.2]) ++ ext).get? gw.1.length =
                    some gw.2 := by
                  rw [List.append_assoc,
                    List.get?_append_right (Nat.le_refl _)]
                  simp
                rw [hgetobj]
                dsimp only
                have hrb := ih.2 ts g gw.1 gw.2
                  (by simpa [writeFields] using hfold) ([gw.2] ++ ext)
                simp only [readFields] at hrb
                rw [List.append_assoc]
                rw [hrb]
                rfl
      refine ⟨hval, ?_⟩
      intro ts
      induction ts with
      | nil =>
          intro g g2 o hw ext
          simp only [writeFields, optFoldFields] at hw
          injection hw with hp
          injection hp with h1 h2
          subst h1; subst h2
          rfl
      | cons f rest ihl =>
          intro g g2 o hw ext
          simp only [writeFields, optFoldFields] at hw
          cases hv : writeVal (n + 1) f.2 g with
          | none => rw [hv] at hw; cases hw
          | some gv =>
              rw [hv] at hw
              dsimp only at hw
              cases hr : optFoldFields (writeVal (n + 1)) rest gv.1 with
              | none => rw [hr] at hw; cases hw
              | some gw =>
                  rw [hr] at hw
                  injection hw with hp
                  injection hp with h1 h2
                  subst h1; subst h2
                  obtain ⟨⟨ext2, hext2⟩, _, _⟩ :=
                    (writeVal_spec (n + 1)).2 rest gv.1 gw.1 gw.2
                      (by simpa [writeFields] using hr)
                  simp only [readFields, optMapList]
                  have hv1 : readVal (n + 1) (gw.1 ++ ext) gv.2 = some f.2 := by
                    have := hval f.2 g gv.1 gv.2 hv (ext2 ++ ext)
                    rw [hext2, List.append_assoc]
                    exact this
                  rw [hv1]
                  have hrest : readFields (n + 1) (gw.1 ++ ext) gw.2 =
                      some rest := ihl gv.1 gw.1 gw.2
                        (by simpa [writeFields] using hr) ext
                  simp only [readFields] at hrest
                  rw [hrest]
                  rfl

theorem memGetObs_alive (f2 nowv : Nat) (st : AdapterState) (id : String)
    (cv : JVal) (exp : Nat)
    (hlook : msGet st.sessions id = some (cv, exp)) (hn : ¬ exp ≤ nowv) :
    memGetObs f2 nowv st id =
      (readVal f2 st.heap cv).map (fun t => some (t, exp)) := by
  cases hr : readVal f2 st.heap cv with
  | none =>
      have hmg : memGet f2 nowv st id = none := by
        simp [memGet, hlook, hn, cloneVal, hr]
      simp [memGetObs, hmg]
  | some t =>
      have hs := (read_write_succeeds f2).1 st.heap cv t hr st.heap
      cases hw : writeVal f2 t st.heap with
      | none => rw [hw] at hs; cases hs
      | some gv =>
          have hmg : memGet f2 nowv st id =
              some ({ st with heap := gv.1 }, some (gv.2, exp)) := by
            simp [memGet, hlook, hn, cloneVal, hr, hw]
          have hrb := (write_readback f2).1 t st.heap gv.1 gv.2 hw []
          rw [List.append_nil] at hrb
          simp [memGetObs, hmg, hrb]

theorem memGetObs_expired (f2 nowv : Nat) (st : AdapterState) (id : String)
    (cv : JVal) (exp : Nat)
    (hlook : msGet st.sessions id = some (cv, exp)) (hn : exp ≤ nowv) :
    memGetObs f2 nowv st id = some none := by
  have hmg : memGet f2 nowv st id =
      some ({ st with sessions := msDelete st.sessions id }, none) := by
    simp [memGet, hlook, hn]
  simp [memGetObs, hmg]

/-- C9: the in-memory adapter isolates stored records by deep cloning at
both boundaries.  After `set(id, record)`, any sequence of field mutations
on pre-existing objects (in particular the whole caller-held record graph)
leaves the observable result of `get(id)` unchanged; and after `get(id)`
returned a clone, any sequence of field mutations on the freshly allocated
objects of that returned clone leaves the observable result of later
`get(id)` calls unchanged. -/
theorem memory_adapter_clone_isolation
    (fuel f2 f3 nowv : Nat) (st st1 st2 : AdapterState) (id : String)
    (dv : JVal) (exp : Nat) (ms ms2 : List (Nat × String × JVal))
    (rv : JVal) (e : Nat)
    (hset : memSet fuel st id dv exp = some st1)
    (hms : ∀ mu ∈ ms, mu.1 < st.heap.length)
    (hget : memGet f2 nowv st1 id = some (st2, some (rv, e)))
    (hms2 : ∀ mu ∈ ms2, st1.heap.length ≤ mu.1) :
    memGetObs f2 nowv { st1 with heap := applyMuts st1.heap ms } id =
      memGetObs f2 nowv st1 id ∧
    memGetObs f3 nowv { st2 with heap := applyMuts st2.heap ms2 } id =
      memGetObs f3 nowv st2 id := by
  -- invert memSet
  simp only [memSet] at hset
  cases hcv : cloneVal fuel st.heap dv with
  | none => rw [hcv] at hset; cases hset
  | some hv =>
  rw [hcv] at hset
  dsimp only at hset
  injection hset with hst1
  -- invert cloneVal
  simp only [cloneVal] at hcv
  cases hrv : readVal fuel st.heap dv with
  | none => rw [hrv] at hcv; cases hcv
  | some t0 =>
  rw [hrv] at hcv
  dsimp only at hcv
  obtain ⟨⟨ext1, hext1⟩, hrefs, hseg⟩ :=
    (writeVal_spec fuel).1 t0 st.heap hv.1 hv.2 hcv
  have hsess1 : st1.sessions = msSet st.sessions id (hv.2, exp) := by
    rw [← hst1]
  have hheap1 : st1.heap = hv.1 := by rw [← hst1]
  have hlook1 : msGet st1.sessions id = some (hv.2, exp) := by
    rw [hsess1]; exact msGet_msSet_self st.sessions id (hv.2, exp)
  have hcl : heapClosedIn st.heap.length st1.heap.length st1.heap := by
    intro i o hlo hhi hg
    rw [hheap1] at hg
    have := hseg i o hlo hg
    rw [hheap1]
    exact this
  have hrefs1 : refsIn st.heap.length st1.heap.length hv.2 := by
    rw [hheap1]; exact hrefs
  -- invert memGet
  simp only [memGet, hlook1] at hget
  by_cases hexp : exp ≤ nowv
  · rw [if_pos hexp] at hget
    injection hget with hp
    injection hp with h1 h2
    cases h2
  · rw [if_neg hexp] at hget
    cases hcv2 : cloneVal f2 st1.heap hv.2 with
    | none => rw [hcv2] at hget; cases hget
    | some gv2 =>
    rw [hcv2] at hget
    dsimp only at hget
    injection hget with hp
    injection hp with h1 h2
    injection h2 with h3
    injection h3 with h4 h5
    subst h4
    subst h5
    have hst2 : st2 = { st1 with heap := gv2.1 } := h1.symm
    simp only [cloneVal] at hcv2
    cases hrv2 : readVal f2 st1.heap hv.2 with
    | none => rw [hrv2] at hcv2; cases hcv2
    | some t1 =>
    rw [hrv2] at hcv2
    dsimp only at hcv2
    obtain ⟨⟨ext2, hext2⟩, _, _⟩ :=
      (writeVal_spec f2).1 t1 st1.heap gv2.1 gv2.2 hcv2
    constructor
    · -- part A: mutations of pre-existing objects do not change get
      obtain ⟨hclm, hrdm⟩ := applyMuts_frame st.heap.length st1.heap.length
        ms (fun mu hmu => Or.inl (hms mu hmu)) st1.heap hcl
      have hA1 := memGetObs_alive f2 nowv
        { st1 with heap := applyMuts st1.heap ms } id hv.2 exp hlook1 hexp
      have hA2 := memGetObs_alive f2 nowv st1 id hv.2 exp hlook1 hexp
      rw [hA1, hA2]
      rw [hrdm f2 hv.2 hrefs1]
    · -- part B: mutations of the returned clone do not change later gets
      have hcl2 : heapClosedIn st.heap.length st1.heap.length st2.heap := by
        intro i o hlo hhi hg
        rw [hst2] at hg
        dsimp only at hg
        rw [hext2, List.get?_append hhi] at hg
        exact hcl i o hlo hhi hg
      obtain ⟨hclm2, hrdm2⟩ := applyMuts_frame st.heap.length
        st1.heap.length ms2 (fun mu hmu => Or.inr (hms2 mu hmu)) st2.heap hcl2
      have hlook2 : msGet st2.sessions id = some (hv.2, exp) := by
        rw [hst2]; exact hlook1
      have hB1 := memGetObs_alive f3 nowv
        { st2 with heap := applyMuts st2.heap ms2 } id hv.2 exp hlook2 hexp
      have hB2 := memGetObs_alive f3 nowv st2 id hv.2 exp hlook2 hexp
      rw [hB1, hB2]
      rw [hrdm2 f3 hv.2 hrefs1]

theorem memory_adapter_clone_isolation_witness :
    memGetObs 5 0 { stW1 with
        heap := applyMuts stW1.heap [(0, "a", JVal.num 99)] } "sid" =
      memGetObs 5 0 stW1 "sid" ∧
    memGetObs 5 0 { stW2 with
        heap := applyMuts stW2.heap [(2, "a", JVal.num 77)] } "sid" =
      memGetObs 5 0 stW2 "sid" :=
  memory_adapter_clone_isolation 5 5 5 0 stW stW1 stW2 "sid" (JVal.ref 0) 10
    [(0, "a", JVal.num 99)] [(2, "a", JVal.num 77)] (JVal.ref 2) 10
    (by decide) (by decide) (by decide) (by decide)

end Memory
end BetterSession
